import Mathlib

/-!
# Verification of the write-coalescing configuration synchronizer

Shallow embedding of `robot_cameraman/server_static_folder/api.js`
(`RequestQueue`) and its merge helper `assign-deep.js`
(`isObject`, `isValidKey`, `assignDeep`, `assign`).

JSON-like values are modelled by the inductive type `Doc`.  The in-place
mutation of the JavaScript code is modelled by pure functions returning
the updated value; property assignment on plain objects (replace the
binding if the key is present, append it otherwise, preserving insertion
order, which is what `for..in` iteration observes) is `setKey`.
-/

/-- A JavaScript/JSON value as handled by the merge code: `null`, booleans,
numbers, strings, arrays, and plain objects (insertion-ordered fields). -/
inductive Doc where
  | null
  | bool (b : Bool)
  | num (n : Int)
  | str (s : String)
  | arr (elems : List Doc)
  | obj (fields : List (String × Doc))
deriving Repr

/-- `isObject` from assign-deep.js: true exactly for non-null, non-array
objects (functions do not occur in the documents handled here). -/
def isObject : Doc → Bool
  | .obj _ => true
  | _ => false

/-- `isValidKey` from assign-deep.js: the fixed denylist of
prototype-polluting keys. -/
def isValidKey (key : String) : Bool :=
  key ≠ "__proto__" && key ≠ "constructor" && key ≠ "prototype"

/-- JavaScript `typeof`, restricted to the values of `Doc`
(`typeof null`, arrays and objects are all "object"). -/
def jsTypeof : Doc → String
  | .null => "object"
  | .bool _ => "boolean"
  | .num _ => "number"
  | .str _ => "string"
  | .arr _ => "object"
  | .obj _ => "object"

/-- JavaScript truthiness of a `Doc` value (`if (this._payload)` tests). -/
def truthy : Doc → Bool
  | .null => false
  | .bool b => b
  | .num n => n ≠ 0
  | .str s => s ≠ ""
  | .arr _ => true
  | .obj _ => true

/-- Read an own property: first binding of `k` in the field list. -/
def getKey : List (String × Doc) → String → Option Doc
  | [], _ => none
  | (k', v) :: rest, k => if k' = k then some v else getKey rest k

/-- JavaScript property write `target[key] = v` on a plain object:
replace the existing binding in place, else append. -/
def setKey : List (String × Doc) → String → Doc → List (String × Doc)
  | [], k, v => [(k, v)]
  | (k', v') :: rest, k, v =>
      if k' = k then (k', v) :: rest else (k', v') :: setKey rest k v

/-- Property read on an arbitrary value: `none` on non-objects. -/
def docGet (d : Doc) (k : String) : Option Doc :=
  match d with
  | .obj fields => getKey fields k
  | _ => none

/-- Two-level property read, `d[k][j]`. -/
def docGet2 (d : Doc) (k j : String) : Option Doc :=
  match docGet d k with
  | some d' => docGet d' j
  | none => none

mutual

/-- `assignDeep(target, ...rest)` from assign-deep.js: fold every
object-shaped edit of `rest` into `target`, left to right; non-object
edits are skipped entirely. -/
def assignDeep (target : Doc) (rest : List Doc) : Doc :=
  match rest with
  | [] => target
  | o :: tl =>
      match o with
      | .obj fields => assignDeep (assignFields target fields) tl
      | _ => assignDeep target tl
termination_by sizeOf rest

/-- The `for key in obj` loop body of `assignDeep`: process the fields of
one edit object in insertion order, skipping denylisted keys. -/
def assignFields (target : Doc) (fields : List (String × Doc)) : Doc :=
  match fields with
  | [] => target
  | (k, v) :: tl =>
      if isValidKey k then assignFields (assign target v k) tl
      else assignFields target tl
termination_by sizeOf fields

/-- `assign(target, val, key)` from assign-deep.js.  The queue only ever
reaches this with a plain-object `target`; for other targets JavaScript
would either throw (`null`) or drop/attach the property, none of which is
reachable from the claims' uses, so they are modelled as the identity. -/
def assign (target : Doc) (val : Doc) (key : String) : Doc :=
  match target with
  | .obj tfields =>
      match val, getKey tfields key with
      | .obj vfields, some (.obj ofields) =>
          .obj (setKey tfields key (assignFields (.obj ofields) vfields))
      | .obj vfields, _ =>
          .obj (setKey tfields key (assignFields (.obj []) vfields))
      | _, _ => .obj (setKey tfields key val)
  | other => other
termination_by sizeOf val

end

/-!
## The coalescing write queue

`RequestQueue` from api.js.  Its two mutable fields `_payload` (a
JavaScript value, initially `null`) and `_isSending` become the fields of
a state record.  `add` and the completion continuation of `_send` become
pure transition functions that also report the list of `put` requests
they issue.  The `throw` in `_merge` is modelled with `Except`.
-/

/-- The mutable state of a `RequestQueue` instance: `_payload` and
`_isSending` from api.js. -/
structure RequestQueue where
  payload : Doc
  isSending : Bool
deriving Repr

/-- The state established by the constructor: `_payload = null`,
`_isSending = false`. -/
def RequestQueue.init : RequestQueue := ⟨Doc.null, false⟩

/-- `RequestQueue._merge(current, next)`: throws when the two dynamic
types differ, deep-merges when `next` is object-shaped, otherwise
replaces. -/
def RequestQueue.merge (current next : Doc) : Except String Doc :=
  if jsTypeof current ≠ jsTypeof next then
    Except.error "Merge expects same type"
  else if isObject next then
    Except.ok (assignDeep current [next])
  else
    Except.ok next

/-- `RequestQueue.add(payload)`.  Returns the new state and the list of
`put` payloads issued by this call (via `_send`), or the error thrown by
`_merge`. -/
def RequestQueue.add (s : RequestQueue) (e : Doc) : Except String (RequestQueue × List Doc) :=
  if s.isSending then
    if truthy s.payload then
      match RequestQueue.merge s.payload e with
      | Except.ok m => Except.ok ({ s with payload := m }, [])
      | Except.error msg => Except.error msg
    else
      Except.ok ({ s with payload := e }, [])
  else
    Except.ok ({ s with isSending := true }, [e])

/-- The completion continuation of `_send` (the `.then` callback): if a
pending payload has accumulated, clear it and immediately re-send it,
otherwise drop the in-flight flag.  Returns the new state and the list of
`put` payloads issued. -/
def RequestQueue.complete (s : RequestQueue) : RequestQueue × List Doc :=
  if truthy s.payload then
    ({ payload := Doc.null, isSending := true }, [s.payload])
  else
    ({ s with isSending := false }, [])

/-- Externally visible events of one queue instance: a producer calling
`add`, or the outstanding `put` resolving. -/
inductive QEvent where
  | add (e : Doc)
  | complete
deriving Repr

/-- Run a sequence of events, collecting every `put` payload issued, in
order.  (Completion events are applied unconditionally here; validated
traces are described by `Steps`.) -/
def execTrace (s : RequestQueue) : List QEvent → Except String (RequestQueue × List Doc)
  | [] => Except.ok (s, [])
  | QEvent.add e :: evs =>
      match RequestQueue.add s e with
      | Except.ok (s', ps) =>
          match execTrace s' evs with
          | Except.ok (s'', ps') => Except.ok (s'', ps ++ ps')
          | Except.error m => Except.error m
      | Except.error m => Except.error m
  | QEvent.complete :: evs =>
      match RequestQueue.complete s with
      | (s', ps) =>
          match execTrace s' evs with
          | Except.ok (s'', ps') => Except.ok (s'', ps ++ ps')
          | Except.error m => Except.error m

/-- `Steps s evs s' puts`: the event sequence `evs` is a valid execution
from state `s` to state `s'` issuing exactly the `put` payloads `puts`:
every `add` returns without throwing, and a completion event only occurs
while a write is actually outstanding. -/
inductive Steps : RequestQueue → List QEvent → RequestQueue → List Doc → Prop where
  | nil (s : RequestQueue) : Steps s [] s []
  | add {s s' s'' : RequestQueue} {e : Doc} {ps ps' : List Doc} {evs : List QEvent} :
      RequestQueue.add s e = Except.ok (s', ps) → Steps s' evs s'' ps' →
      Steps s (QEvent.add e :: evs) s'' (ps ++ ps')
  | complete {s s' s'' : RequestQueue} {ps ps' : List Doc} {evs : List QEvent} :
      s.isSending = true → RequestQueue.complete s = (s', ps) → Steps s' evs s'' ps' →
      Steps s (QEvent.complete :: evs) s'' (ps ++ ps')

/-- Number of completion events in a trace. -/
def countCompletes : List QEvent → Nat
  | [] => 0
  | QEvent.complete :: evs => countCompletes evs + 1
  | QEvent.add _ :: evs => countCompletes evs

/-!
## Basic facts about the queue transitions
-/

/-- Does the base bind `k` to a mapping-shaped value?  (The condition of
the recursive-merge branch of `assign`.) -/
def objAt (tfields : List (String × Doc)) (k : String) : Bool :=
  match getKey tfields k with
  | some (Doc.obj _) => true
  | _ => false

mutual

/-- No denylisted key occurs in any mapping node reachable through
mapping values only (sequence elements are opaque to the merge and are
not inspected). -/
def noBadKeysInMaps : Doc → Bool
  | Doc.obj fs => noBadKeysFields fs
  | _ => true
termination_by d => sizeOf d

/-- Field-list form of `noBadKeysInMaps`. -/
def noBadKeysFields : List (String × Doc) → Bool
  | [] => true
  | (k, v) :: tl => isValidKey k && noBadKeysInMaps v && noBadKeysFields tl
termination_by fs => sizeOf fs

end

mutual

/-- A denylisted key occurs somewhere in the value, at any nesting depth,
including inside sequence elements. -/
def hasBadKeyDeep : Doc → Bool
  | Doc.obj fs => hasBadKeyFields fs
  | Doc.arr es => hasBadKeyList es
  | _ => false
termination_by d => sizeOf d

/-- Field-list form of `hasBadKeyDeep`. -/
def hasBadKeyFields : List (String × Doc) → Bool
  | [] => false
  | (k, v) :: tl => !isValidKey k || hasBadKeyDeep v || hasBadKeyFields tl
termination_by fs => sizeOf fs

/-- Element-list form of `hasBadKeyDeep`. -/
def hasBadKeyList : List Doc → Bool
  | [] => false
  | d :: tl => hasBadKeyDeep d || hasBadKeyList tl
termination_by es => sizeOf es

end

mutual

/-- Well-formed document: every mapping node reachable through mapping
values has pairwise-distinct keys (the spec's "keys are unique per
mapping"). -/
def WFDoc : Doc → Bool
  | Doc.obj fs => WFFields fs
  | _ => true
termination_by d => sizeOf d

/-- Field-list form of `WFDoc`. -/
def WFFields : List (String × Doc) → Bool
  | [] => true
  | (k, v) :: tl => !(getKey tl k).isSome && WFDoc v && WFFields tl
termination_by fs => sizeOf fs

end

/-- 1 if a write is outstanding, else 0. -/
def flagCount : Bool → Nat
  | true => 1
  | false => 0

/-- An `add` call made while a write is outstanding issues no `put` and
leaves the in-flight flag set. -/
theorem add_sending_no_put {s : RequestQueue} {e : Doc} {s' : RequestQueue}
    {ps : List Doc} (hs : s.isSending = true)
    (h : RequestQueue.add s e = Except.ok (s', ps)) :
    ps = [] ∧ s'.isSending = true := by
  unfold RequestQueue.add at h
  rw [hs] at h
  simp only [if_true] at h
  by_cases hp : truthy s.payload = true
  · rw [hp] at h
    simp only [if_true] at h
    cases hm : RequestQueue.merge s.payload e with
    | ok m =>
        rw [hm] at h
        cases h
        exact ⟨rfl, rfl⟩
    | error msg =>
        rw [hm] at h
        cases h
  · rw [eq_false_of_ne_true hp] at h
    simp only [Bool.false_eq_true, if_false] at h
    cases h
    exact ⟨rfl, rfl⟩

/-- An `add` call made while idle sends the payload immediately,
unchanged, and sets the in-flight flag. -/
theorem add_idle {s : RequestQueue} {e : Doc} (hs : s.isSending = false) :
    RequestQueue.add s e = Except.ok ({ s with isSending := true }, [e]) := by
  unfold RequestQueue.add
  rw [hs]
  simp

/-- A completion that finds a truthy pending payload clears it and issues
exactly one new `put`, carrying that payload. -/
theorem complete_pending {s : RequestQueue} (hp : truthy s.payload = true) :
    RequestQueue.complete s = (⟨Doc.null, true⟩, [s.payload]) := by
  unfold RequestQueue.complete
  rw [hp]
  simp

/-- A completion that finds no (truthy) pending payload clears the
in-flight flag and issues no `put`. -/
theorem complete_empty {s : RequestQueue} (hp : truthy s.payload = false) :
    RequestQueue.complete s = ({ s with isSending := false }, []) := by
  unfold RequestQueue.complete
  rw [hp]
  simp

/-- Conservation law of the queue: along any valid trace, the number of
`put` calls issued equals the number of completions plus the change of
the in-flight flag. -/
theorem steps_put_count {s₀ : RequestQueue} {evs : List QEvent}
    {s : RequestQueue} {puts : List Doc} (h : Steps s₀ evs s puts) :
    puts.length + flagCount s₀.isSending =
      countCompletes evs + flagCount s.isSending := by
  induction h with
  | nil s => rfl
  | add hadd hsteps ih =>
      rename_i s₁ s' s'' e ps ps' evs'
      by_cases hs : s₁.isSending = true
      · obtain ⟨hps, hs'⟩ := add_sending_no_put hs hadd
        subst hps
        rw [hs'] at ih
        simp only [List.nil_append, countCompletes, hs, flagCount] at *
        omega
      · have hs0 : s₁.isSending = false := eq_false_of_ne_true hs
        rw [add_idle hs0] at hadd
        injection hadd with h1
        injection h1 with h2 h3
        subst h2
        subst h3
        simp [countCompletes, hs0, flagCount] at ih ⊢
        omega
  | complete hsend hc hsteps ih =>
      rename_i s₁ s' s'' ps ps' evs'
      by_cases hp : truthy s₁.payload = true
      · rw [complete_pending hp] at hc
        injection hc with h2 h3
        subst h2
        subst h3
        simp [countCompletes, hsend, flagCount] at ih ⊢
        omega
      · rw [complete_empty (eq_false_of_ne_true hp)] at hc
        injection hc with h2 h3
        subst h2
        subst h3
        simp [countCompletes, hsend, flagCount] at ih ⊢
        omega

/-- C1: Single-flight: along every valid sequence of `add` calls and
write completions from the initial (idle) state, the number of `put`
calls issued exceeds the number of completions by the in-flight flag, so
at most one `put` is outstanding at any instant; moreover an `add` made
while `_isSending` is true issues no `put`, and a completion that finds a
pending payload issues exactly one new `put`. -/
theorem single_flight {evs : List QEvent} {s : RequestQueue} {puts : List Doc}
    {q : RequestQueue} {e : Doc} {q' : RequestQueue} {ps : List Doc}
    {q2 : RequestQueue}
    (h : Steps RequestQueue.init evs s puts)
    (hq : q.isSending = true)
    (hadd : RequestQueue.add q e = Except.ok (q', ps))
    (hq2 : truthy q2.payload = true) :
    puts.length = countCompletes evs + flagCount s.isSending
    ∧ puts.length ≤ countCompletes evs + 1
    ∧ ps = []
    ∧ RequestQueue.complete q2 = (⟨Doc.null, true⟩, [q2.payload]) := by
  have hc := steps_put_count h
  have hinit : flagCount (RequestQueue.init).isSending = 0 := rfl
  rw [hinit] at hc
  have hb : flagCount s.isSending ≤ 1 := by
    cases hs : s.isSending <;> simp [flagCount]
  refine ⟨by omega, by omega, (add_sending_no_put hq hadd).1, complete_pending hq2⟩

/-- Witness for C1: the two-event trace `add {h: 10}; complete`, an `add`
of `{s: 50}` against a sending state, and a completion against a sending
state with pending payload `{s: 50}`. -/
theorem single_flight_witness :
    (1 : Nat) = countCompletes [QEvent.add (Doc.obj [("h", Doc.num 10)]), QEvent.complete]
        + flagCount false
    ∧ (1 : Nat) ≤ countCompletes [QEvent.add (Doc.obj [("h", Doc.num 10)]), QEvent.complete] + 1
    ∧ ([] : List Doc) = []
    ∧ RequestQueue.complete ⟨Doc.obj [("s", Doc.num 50)], true⟩ =
        (⟨Doc.null, true⟩, [Doc.obj [("s", Doc.num 50)]]) :=
  single_flight
    (Steps.add (add_idle rfl) (Steps.complete rfl (complete_empty rfl) (Steps.nil _)))
    (show (RequestQueue.mk Doc.null true).isSending = true from rfl)
    (show RequestQueue.add ⟨Doc.null, true⟩ (Doc.obj [("s", Doc.num 50)]) =
        Except.ok (⟨Doc.obj [("s", Doc.num 50)], true⟩, []) from rfl)
    (show truthy (RequestQueue.mk (Doc.obj [("s", Doc.num 50)]) true).payload = true from rfl)

/-!
## Properties of property read/write and shape preservation
-/

/-- Reading back a key that was just written. -/
theorem getKey_setKey_self (fs : List (String × Doc)) (k : String) (v : Doc) :
    getKey (setKey fs k v) k = some v := by
  induction fs with
  | nil => simp [setKey, getKey]
  | cons p tl ih =>
      obtain ⟨k', v'⟩ := p
      by_cases h : k' = k
      · subst h
        simp [setKey, getKey]
      · simp [setKey, getKey, h, ih]

/-- Writing one key does not disturb reads of another. -/
theorem getKey_setKey_ne (fs : List (String × Doc)) {j k : String} (v : Doc)
    (h : j ≠ k) : getKey (setKey fs k v) j = getKey fs j := by
  have h' : k ≠ j := Ne.symm h
  induction fs with
  | nil => simp [setKey, getKey, h']
  | cons p tl ih =>
      obtain ⟨k', v'⟩ := p
      by_cases hk : k' = k
      · subst hk
        simp [setKey, getKey, h']
      · simp [setKey, getKey, hk, ih]

/-- Writing back the value already stored leaves the object unchanged. -/
theorem setKey_same {fs : List (String × Doc)} {k : String} {v : Doc}
    (h : getKey fs k = some v) : setKey fs k v = fs := by
  induction fs with
  | nil => simp [getKey] at h
  | cons p tl ih =>
      obtain ⟨k', v'⟩ := p
      by_cases hk : k' = k
      · subst hk
        simp [getKey] at h
        simp [setKey, h]
      · simp [getKey, hk] at h
        simp [setKey, hk, ih h]

/-- Every object-shaped document is an `obj`. -/
theorem exists_obj_of_isObject {d : Doc} (h : isObject d = true) :
    ∃ fs, d = Doc.obj fs := by
  cases d <;> simp [isObject] at h ⊢

/-- Object-shaped values are truthy. -/
theorem truthy_of_isObject {d : Doc} (h : isObject d = true) :
    truthy d = true := by
  cases d <;> first | rfl | simp [isObject] at h

/-- `assign` never changes the shape of the target. -/
theorem assign_isObject_eq (t v : Doc) (k : String) :
    isObject (assign t v k) = isObject t := by
  cases t with
  | obj tf =>
      cases v with
      | obj vf =>
          cases hk : getKey tf k with
          | some d => cases d <;> simp [assign, hk, isObject]
          | none => simp [assign, hk, isObject]
      | null => simp [assign, isObject]
      | bool b => simp [assign, isObject]
      | num n => simp [assign, isObject]
      | str s => simp [assign, isObject]
      | arr es => simp [assign, isObject]
  | null => simp [assign]
  | bool b => simp [assign]
  | num n => simp [assign]
  | str s => simp [assign]
  | arr es => simp [assign]

/-- `assign` leaves a non-object target untouched. -/
theorem assign_nonobj {t : Doc} (ht : isObject t = false) (v : Doc) (k : String) :
    assign t v k = t := by
  cases t with
  | obj tf => simp [isObject] at ht
  | null => simp [assign]
  | bool b => simp [assign]
  | num n => simp [assign]
  | str s => simp [assign]
  | arr es => simp [assign]

/-- `assignFields` never changes the shape of the target. -/
theorem assignFields_isObject_eq (fields : List (String × Doc)) :
    ∀ t : Doc, isObject (assignFields t fields) = isObject t := by
  induction fields with
  | nil => intro t; simp [assignFields]
  | cons p tl ih =>
      intro t
      obtain ⟨k, v⟩ := p
      by_cases hk : isValidKey k = true
      · simp [assignFields, hk, ih, assign_isObject_eq]
      · simp [assignFields, hk, ih]

/-- `assignFields` leaves a non-object target untouched. -/
theorem assignFields_nonobj (fields : List (String × Doc)) :
    ∀ {t : Doc}, isObject t = false → assignFields t fields = t := by
  induction fields with
  | nil => intro t _; simp [assignFields]
  | cons p tl ih =>
      intro t ht
      obtain ⟨k, v⟩ := p
      by_cases hk : isValidKey k = true
      · rw [assignFields]
        simp only [hk, if_true]
        rw [assign_nonobj ht, ih ht]
      · rw [assignFields]
        simp only [hk, if_false]
        exact ih ht

/-- `assignDeep` never changes the shape of the target. -/
theorem assignDeep_isObject_eq (rest : List Doc) :
    ∀ t : Doc, isObject (assignDeep t rest) = isObject t := by
  induction rest with
  | nil => intro t; simp [assignDeep]
  | cons o tl ih =>
      intro t
      cases o <;> simp [assignDeep, ih, assignFields_isObject_eq]

/-- `assign` at key `k` does not disturb reads of another key `j`. -/
theorem assign_docGet_ne {j k : String} (h : j ≠ k) (t v : Doc) :
    docGet (assign t v k) j = docGet t j := by
  cases t with
  | obj tf =>
      cases v with
      | obj vf =>
          cases hk : getKey tf k with
          | some d => cases d <;> simp [assign, hk, docGet, getKey_setKey_ne _ _ h]
          | none => simp [assign, hk, docGet, getKey_setKey_ne _ _ h]
      | null => simp [assign, docGet, getKey_setKey_ne _ _ h]
      | bool b => simp [assign, docGet, getKey_setKey_ne _ _ h]
      | num n => simp [assign, docGet, getKey_setKey_ne _ _ h]
      | str s => simp [assign, docGet, getKey_setKey_ne _ _ h]
      | arr es => simp [assign, docGet, getKey_setKey_ne _ _ h]
  | null => rw [@assign_nonobj Doc.null rfl _ _]
  | bool b => rw [@assign_nonobj (Doc.bool b) rfl _ _]
  | num n => rw [@assign_nonobj (Doc.num n) rfl _ _]
  | str s => rw [@assign_nonobj (Doc.str s) rfl _ _]
  | arr es => rw [@assign_nonobj (Doc.arr es) rfl _ _]

/-- Processing an edit's fields does not disturb reads of a key that no
valid field of the edit carries. -/
theorem assignFields_docGet_skip (fields : List (String × Doc)) :
    ∀ (t : Doc) (j : String), (∀ p ∈ fields, isValidKey p.1 = true → p.1 ≠ j) →
      docGet (assignFields t fields) j = docGet t j := by
  induction fields with
  | nil => intro t _ _; simp [assignFields]
  | cons p tl ih =>
      intro t j hcond
      obtain ⟨k, v⟩ := p
      by_cases hk : isValidKey k = true
      · have hkj : k ≠ j := hcond (k, v) (List.mem_cons_self _ _) hk
        rw [assignFields]
        simp only [hk, if_true]
        rw [ih _ j (fun q hq => hcond q (List.mem_cons_of_mem _ hq)),
          assign_docGet_ne (Ne.symm hkj)]
      · rw [assignFields]
        simp only [hk, if_false]
        exact ih _ j (fun q hq => hcond q (List.mem_cons_of_mem _ hq))

/-- The merge never touches a binding under a denylisted key: at the top
level of the base, the value stored under a denylisted key survives every
merge unchanged. -/
theorem assignDeep_docGet_invalid (edits : List Doc) :
    ∀ (t : Doc) (j : String), isValidKey j = false →
      docGet (assignDeep t edits) j = docGet t j := by
  induction edits with
  | nil => intro t _ _; simp [assignDeep]
  | cons o tl ih =>
      intro t j hj
      cases o with
      | obj fs =>
          have hcond : ∀ p ∈ fs, isValidKey p.1 = true → p.1 ≠ j := by
            intro p _ hv he
            rw [he, hj] at hv
            cases hv
          simp only [assignDeep]
          rw [ih _ j hj, assignFields_docGet_skip fs t j hcond]
      | null => simp [assignDeep, ih _ j hj]
      | bool b => simp [assignDeep, ih _ j hj]
      | num n => simp [assignDeep, ih _ j hj]
      | str s => simp [assignDeep, ih _ j hj]
      | arr es => simp [assignDeep, ih _ j hj]

/-- Non-object values carry no denylisted key reachable through mapping
nodes (sequences are opaque to the merge). -/
theorem noBad_nonobj {d : Doc} (h : isObject d = false) :
    noBadKeysInMaps d = true := by
  cases d with
  | obj fs => simp [isObject] at h
  | null => simp [noBadKeysInMaps]
  | bool b => simp [noBadKeysInMaps]
  | num n => simp [noBadKeysInMaps]
  | str s => simp [noBadKeysInMaps]
  | arr es => simp [noBadKeysInMaps]

/-- Writing a clean value under a valid key keeps the field list clean. -/
theorem noBadFields_setKey {fs : List (String × Doc)} {k : String} {v : Doc}
    (hfs : noBadKeysFields fs = true) (hk : isValidKey k = true)
    (hv : noBadKeysInMaps v = true) : noBadKeysFields (setKey fs k v) = true := by
  induction fs with
  | nil => simp [setKey, noBadKeysFields, hk, hv]
  | cons p tl ih =>
      obtain ⟨k', v'⟩ := p
      simp only [noBadKeysFields, Bool.and_eq_true] at hfs
      obtain ⟨⟨h1, h2⟩, h3⟩ := hfs
      by_cases hkk : k' = k
      · subst hkk
        simp [setKey, noBadKeysFields, h1, hv, h3]
      · simp [setKey, hkk, noBadKeysFields, h1, h2, ih h3]

/-- Every value stored in a clean field list is itself clean. -/
theorem noBadFields_getKey {fs : List (String × Doc)} {k : String} {d : Doc}
    (hfs : noBadKeysFields fs = true) (h : getKey fs k = some d) :
    noBadKeysInMaps d = true := by
  induction fs with
  | nil => simp [getKey] at h
  | cons p tl ih =>
      obtain ⟨k', v'⟩ := p
      simp only [noBadKeysFields, Bool.and_eq_true] at hfs
      obtain ⟨⟨h1, h2⟩, h3⟩ := hfs
      by_cases hkk : k' = k
      · subst hkk
        simp [getKey] at h
        rw [← h]
        exact h2
      · simp [getKey, hkk] at h
        exact ih h3 h

mutual

/-- The merge never introduces a denylisted key into a mapping node
reachable through mapping values: cleanliness of the base is preserved by
merging arbitrary (even polluted) edits. -/
theorem assignDeep_noBad (rest : List Doc) (t : Doc)
    (ht : noBadKeysInMaps t = true) :
    noBadKeysInMaps (assignDeep t rest) = true := by
  cases rest with
  | nil => simpa [assignDeep] using ht
  | cons o tl =>
      cases o with
      | obj fs =>
          simp only [assignDeep]
          exact assignDeep_noBad tl _ (assignFields_noBad fs t ht)
      | null => simp only [assignDeep]; exact assignDeep_noBad tl t ht
      | bool b => simp only [assignDeep]; exact assignDeep_noBad tl t ht
      | num n => simp only [assignDeep]; exact assignDeep_noBad tl t ht
      | str s => simp only [assignDeep]; exact assignDeep_noBad tl t ht
      | arr es => simp only [assignDeep]; exact assignDeep_noBad tl t ht
termination_by sizeOf rest

/-- Field-list form of `assignDeep_noBad`. -/
theorem assignFields_noBad (fields : List (String × Doc)) (t : Doc)
    (ht : noBadKeysInMaps t = true) :
    noBadKeysInMaps (assignFields t fields) = true := by
  cases fields with
  | nil => simpa [assignFields] using ht
  | cons p tl =>
      obtain ⟨k, v⟩ := p
      by_cases hk : isValidKey k = true
      · rw [assignFields]
        simp only [hk, if_true]
        exact assignFields_noBad tl _ (assign_noBad v t k hk ht)
      · rw [assignFields]
        simp only [hk, if_false]
        exact assignFields_noBad tl t ht
termination_by sizeOf fields

/-- A single assignment under a valid key preserves cleanliness. -/
theorem assign_noBad (v t : Doc) (k : String) (hk : isValidKey k = true)
    (ht : noBadKeysInMaps t = true) :
    noBadKeysInMaps (assign t v k) = true := by
  cases t with
  | obj tf =>
      have htf : noBadKeysFields tf = true := by
        simpa [noBadKeysInMaps] using ht
      cases v with
      | obj vf =>
          cases hg : getKey tf k with
          | some d =>
              cases d with
              | obj ofs =>
                  have hof : noBadKeysInMaps (Doc.obj ofs) = true :=
                    noBadFields_getKey htf hg
                  have hset := noBadFields_setKey htf hk
                    (assignFields_noBad vf (Doc.obj ofs) hof)
                  simp [assign, hg, noBadKeysInMaps, hset]
              | null =>
                  have hset := noBadFields_setKey htf hk
                    (assignFields_noBad vf (Doc.obj []) (by simp [noBadKeysInMaps, noBadKeysFields]))
                  simp [assign, hg, noBadKeysInMaps, hset]
              | bool b =>
                  have hset := noBadFields_setKey htf hk
                    (assignFields_noBad vf (Doc.obj []) (by simp [noBadKeysInMaps, noBadKeysFields]))
                  simp [assign, hg, noBadKeysInMaps, hset]
              | num n =>
                  have hset := noBadFields_setKey htf hk
                    (assignFields_noBad vf (Doc.obj []) (by simp [noBadKeysInMaps, noBadKeysFields]))
                  simp [assign, hg, noBadKeysInMaps, hset]
              | str s =>
                  have hset := noBadFields_setKey htf hk
                    (assignFields_noBad vf (Doc.obj []) (by simp [noBadKeysInMaps, noBadKeysFields]))
                  simp [assign, hg, noBadKeysInMaps, hset]
              | arr es =>
                  have hset := noBadFields_setKey htf hk
                    (assignFields_noBad vf (Doc.obj []) (by simp [noBadKeysInMaps, noBadKeysFields]))
                  simp [assign, hg, noBadKeysInMaps, hset]
          | none =>
              have hset := noBadFields_setKey htf hk
                (assignFields_noBad vf (Doc.obj []) (by simp [noBadKeysInMaps, noBadKeysFields]))
              simp [assign, hg, noBadKeysInMaps, hset]
      | null =>
          have hset := noBadFields_setKey htf hk (@noBad_nonobj Doc.null rfl)
          simp [assign, noBadKeysInMaps, hset]
      | bool b =>
          have hset := noBadFields_setKey htf hk (@noBad_nonobj (Doc.bool b) rfl)
          simp [assign, noBadKeysInMaps, hset]
      | num n =>
          have hset := noBadFields_setKey htf hk (@noBad_nonobj (Doc.num n) rfl)
          simp [assign, noBadKeysInMaps, hset]
      | str s =>
          have hset := noBadFields_setKey htf hk (@noBad_nonobj (Doc.str s) rfl)
          simp [assign, noBadKeysInMaps, hset]
      | arr es =>
          have hset := noBadFields_setKey htf hk (@noBad_nonobj (Doc.arr es) rfl)
          simp [assign, noBadKeysInMaps, hset]
  | null => simpa [assign] using ht
  | bool b => simpa [assign] using ht
  | num n => simpa [assign] using ht
  | str s => simpa [assign] using ht
  | arr es => simpa [assign] using ht
termination_by sizeOf v

end

/-- C3 (amended): denylisted keys are skipped at every depth reachable
through mapping nodes: the base's binding under a denylisted key is never
modified by a merge, merging arbitrary edits into a base whose mapping
nodes are free of denylisted keys yields a result whose mapping nodes are
free of denylisted keys, and concretely
`merge({}, {"__proto__": {polluted: true}, safe: 1})` equals `{safe: 1}`.
(Keys inside sequence elements are not filtered: sequences are assigned
by reference as opaque values.) -/
theorem denylist_exclusion {bfields : List (String × Doc)} {edits : List Doc}
    {base : Doc} {k : String}
    (hk : isValidKey k = false) (hb : noBadKeysInMaps base = true) :
    docGet (assignDeep (Doc.obj bfields) edits) k = getKey bfields k
    ∧ noBadKeysInMaps (assignDeep base edits) = true
    ∧ assignDeep (Doc.obj [])
        [Doc.obj [("__proto__", Doc.obj [("polluted", Doc.bool true)]), ("safe", Doc.num 1)]]
        = Doc.obj [("safe", Doc.num 1)] := by
  refine ⟨?_, assignDeep_noBad edits base hb, ?_⟩
  · have h := assignDeep_docGet_invalid edits (Doc.obj bfields) k hk
    simpa [docGet] using h
  · simp [assignDeep, assignFields, assign, isValidKey, getKey, setKey]

/-- Witness for C3: base `{"__proto__": 7}` with edit `{x: 1}`, and a
clean base `{x: 2}` with the same edit. -/
theorem denylist_exclusion_witness :
    docGet (assignDeep (Doc.obj [("__proto__", Doc.num 7)])
        [Doc.obj [("x", Doc.num 1)]]) "__proto__"
        = getKey [("__proto__", Doc.num 7)] "__proto__"
    ∧ noBadKeysInMaps (assignDeep (Doc.obj [("x", Doc.num 2)])
        [Doc.obj [("x", Doc.num 1)]]) = true
    ∧ assignDeep (Doc.obj [])
        [Doc.obj [("__proto__", Doc.obj [("polluted", Doc.bool true)]), ("safe", Doc.num 1)]]
        = Doc.obj [("safe", Doc.num 1)] :=
  denylist_exclusion (by simp [isValidKey])
    (by simp [noBadKeysInMaps, noBadKeysFields, isValidKey])

/-- C3 counterexample: a denylisted key nested inside a sequence element
of the edit survives the merge — the merged result does contain a field
under `__proto__` at a nesting depth of the edit, because sequences are
assigned by reference without filtering. -/
theorem denylist_depth_cex :
    assignDeep (Doc.obj [])
        [Doc.obj [("a", Doc.arr [Doc.obj [("__proto__", Doc.num 1)]])]]
      = Doc.obj [("a", Doc.arr [Doc.obj [("__proto__", Doc.num 1)]])]
    ∧ hasBadKeyDeep (Doc.obj [("a", Doc.arr [Doc.obj [("__proto__", Doc.num 1)]])]) = true := by
  constructor
  · simp [assignDeep, assignFields, assign, isValidKey, getKey, setKey]
  · simp [hasBadKeyDeep, hasBadKeyFields, hasBadKeyList, isValidKey]

/-- C4 counterexample: with base `{x: 5}` and edit value `{a: 1}` at key
`x`, one side (the base's value) is non-mapping, yet the mapping-shaped
edit value wins — a fresh clone of it replaces the base value, which is
not kept. -/
theorem nonmapping_wins_cex :
    assign (Doc.obj [("x", Doc.num 5)]) (Doc.obj [("a", Doc.num 1)]) "x"
      = Doc.obj [("x", Doc.obj [("a", Doc.num 1)])]
    ∧ Doc.obj [("x", Doc.obj [("a", Doc.num 1)])] ≠ Doc.obj [("x", Doc.num 5)] := by
  constructor
  · simp [assign, assignFields, getKey, setKey, isValidKey]
  · simp

/-- C4 (amended): whenever at least one of the edit's value and the
base's value at `k` is not mapping-shaped, no key-wise combination
occurs: the edit's value replaces the base's binding at `k` wholesale (as
a fresh filtered clone when the edit's value is mapping-shaped, directly
— including whole sequences — otherwise), and bindings at other keys
are untouched. -/
theorem nonmapping_replacement {tfields : List (String × Doc)} {v : Doc}
    {k j : String}
    (hmix : isObject v = false ∨ objAt tfields k = false) (hj : j ≠ k) :
    docGet (assign (Doc.obj tfields) v k) k
        = some (if isObject v = true then assignDeep (Doc.obj []) [v] else v)
    ∧ docGet (assign (Doc.obj tfields) v k) j = getKey tfields j := by
  refine ⟨?_, by simpa [docGet] using assign_docGet_ne hj (Doc.obj tfields) v⟩
  by_cases hv : isObject v = true
  · obtain ⟨vf, rfl⟩ := exists_obj_of_isObject hv
    have hobj : objAt tfields k = false := by
      cases hmix with
      | inl h => simp [isObject] at h
      | inr h => exact h
    cases hg : getKey tfields k with
    | some d =>
        cases d with
        | obj ofs => simp [objAt, hg] at hobj
        | null => simp [assign, hg, docGet, getKey_setKey_self, isObject, assignDeep]
        | bool b => simp [assign, hg, docGet, getKey_setKey_self, isObject, assignDeep]
        | num n => simp [assign, hg, docGet, getKey_setKey_self, isObject, assignDeep]
        | str s => simp [assign, hg, docGet, getKey_setKey_self, isObject, assignDeep]
        | arr es => simp [assign, hg, docGet, getKey_setKey_self, isObject, assignDeep]
    | none => simp [assign, hg, docGet, getKey_setKey_self, isObject, assignDeep]
  · have hv' : isObject v = false := eq_false_of_ne_true hv
    cases v with
    | obj vf => simp [isObject] at hv'
    | null => simp [assign, docGet, getKey_setKey_self, isObject]
    | bool b => simp [assign, docGet, getKey_setKey_self, isObject]
    | num n => simp [assign, docGet, getKey_setKey_self, isObject]
    | str s => simp [assign, docGet, getKey_setKey_self, isObject]
    | arr es => simp [assign, docGet, getKey_setKey_self, isObject]

/-- Witness for C4 (amended): base `{range: [0, 10], other: 3}`, edit
value `[5]` at key `range`, read back at `range` and at `other`. -/
theorem nonmapping_replacement_witness :
    docGet (assign (Doc.obj [("range", Doc.arr [Doc.num 0, Doc.num 10]), ("other", Doc.num 3)])
        (Doc.arr [Doc.num 5]) "range") "range"
        = some (if isObject (Doc.arr [Doc.num 5]) = true
            then assignDeep (Doc.obj []) [Doc.arr [Doc.num 5]] else Doc.arr [Doc.num 5])
    ∧ docGet (assign (Doc.obj [("range", Doc.arr [Doc.num 0, Doc.num 10]), ("other", Doc.num 3)])
        (Doc.arr [Doc.num 5]) "range") "other"
        = getKey [("range", Doc.arr [Doc.num 0, Doc.num 10]), ("other", Doc.num 3)] "other" :=
  nonmapping_replacement (Or.inl rfl) (by decide)

/-- C6: a non-mapping edit value (scalar, null, or sequence) is assigned
directly, as a full replacement of the base's binding at that key, with
no merge and no clone, leaving every other binding unchanged; concretely
`merge(merge({}, {range: [0, 10]}), {range: [5]})` equals `{range: [5]}`
— arrays are replaced wholesale, never concatenated or index-merged. -/
theorem scalar_replacement {tfields : List (String × Doc)} {v : Doc}
    {k j : String} (hv : isObject v = false) (hj : j ≠ k) :
    docGet (assign (Doc.obj tfields) v k) k = some v
    ∧ docGet (assign (Doc.obj tfields) v k) j = getKey tfields j
    ∧ assignDeep (assignDeep (Doc.obj []) [Doc.obj [("range", Doc.arr [Doc.num 0, Doc.num 10])]])
        [Doc.obj [("range", Doc.arr [Doc.num 5])]]
      = Doc.obj [("range", Doc.arr [Doc.num 5])] := by
  refine ⟨?_, by simpa [docGet] using assign_docGet_ne hj (Doc.obj tfields) v, ?_⟩
  · cases v with
    | obj vf => simp [isObject] at hv
    | null => simp [assign, docGet, getKey_setKey_self]
    | bool b => simp [assign, docGet, getKey_setKey_self]
    | num n => simp [assign, docGet, getKey_setKey_self]
    | str s => simp [assign, docGet, getKey_setKey_self]
    | arr es => simp [assign, docGet, getKey_setKey_self]
  · simp [assignDeep, assignFields, assign, getKey, setKey, isValidKey]

/-- Witness for C6: base `{range: [0, 10]}`, scalar-side edit value `[5]`
at key `range`, frame read at key `x`. -/
theorem scalar_replacement_witness :
    docGet (assign (Doc.obj [("range", Doc.arr [Doc.num 0, Doc.num 10])])
        (Doc.arr [Doc.num 5]) "range") "range" = some (Doc.arr [Doc.num 5])
    ∧ docGet (assign (Doc.obj [("range", Doc.arr [Doc.num 0, Doc.num 10])])
        (Doc.arr [Doc.num 5]) "range") "x"
        = getKey [("range", Doc.arr [Doc.num 0, Doc.num 10])] "x"
    ∧ assignDeep (assignDeep (Doc.obj []) [Doc.obj [("range", Doc.arr [Doc.num 0, Doc.num 10])]])
        [Doc.obj [("range", Doc.arr [Doc.num 5])]]
      = Doc.obj [("range", Doc.arr [Doc.num 5])] :=
  scalar_replacement rfl (by decide)

/-- C7: when both the base's binding at `k` and the edit's value at `k`
are mapping-shaped, the merge recurses into them, so nested keys of the
base not mentioned in the edit survive unchanged; concretely
`merge(merge({}, {a: {x: 1, y: 2}}), {a: {x: 9}})` equals
`{a: {x: 9, y: 2}}`. -/
theorem merge_overwrite {tfields mfields vfields : List (String × Doc)}
    {k j : String}
    (hk : getKey tfields k = some (Doc.obj mfields))
    (hj : j ∉ vfields.map Prod.fst) :
    docGet2 (assign (Doc.obj tfields) (Doc.obj vfields) k) k j = getKey mfields j
    ∧ assignDeep (assignDeep (Doc.obj [])
        [Doc.obj [("a", Doc.obj [("x", Doc.num 1), ("y", Doc.num 2)])]])
        [Doc.obj [("a", Doc.obj [("x", Doc.num 9)])]]
      = Doc.obj [("a", Doc.obj [("x", Doc.num 9), ("y", Doc.num 2)])] := by
  constructor
  · have hcond : ∀ p ∈ vfields, isValidKey p.1 = true → p.1 ≠ j := by
      intro p hp _ he
      exact hj (he ▸ List.mem_map_of_mem Prod.fst hp)
    have hskip := assignFields_docGet_skip vfields (Doc.obj mfields) j hcond
    simp [assign, hk, docGet2, docGet, getKey_setKey_self]
    simpa [docGet] using hskip
  · simp [assignDeep, assignFields, assign, getKey, setKey, isValidKey]

/-- Witness for C7: base `{a: {x: 1, y: 2}}`, edit value `{x: 9}` at key
`a`, read back at nested key `y`. -/
theorem merge_overwrite_witness :
    docGet2 (assign (Doc.obj [("a", Doc.obj [("x", Doc.num 1), ("y", Doc.num 2)])])
        (Doc.obj [("x", Doc.num 9)]) "a") "a" "y"
        = getKey [("x", Doc.num 1), ("y", Doc.num 2)] "y"
    ∧ assignDeep (assignDeep (Doc.obj [])
        [Doc.obj [("a", Doc.obj [("x", Doc.num 1), ("y", Doc.num 2)])]])
        [Doc.obj [("a", Doc.obj [("x", Doc.num 9)])]]
      = Doc.obj [("a", Doc.obj [("x", Doc.num 9), ("y", Doc.num 2)])] :=
  merge_overwrite rfl (by decide)

/-- C9: a non-mapping edit argument (scalar, null, or sequence) is
skipped entirely by `assignDeep`: merging any list of non-object edits
into any base returns the base with every binding unchanged. -/
theorem nonmapping_edit_noop {base : Doc} {edits : List Doc}
    (h : ∀ e ∈ edits, isObject e = false) :
    assignDeep base edits = base := by
  induction edits with
  | nil => simp [assignDeep]
  | cons o tl ih =>
      have ho : isObject o = false := h o (List.mem_cons_self _ _)
      have htl : ∀ e ∈ tl, isObject e = false :=
        fun e he => h e (List.mem_cons_of_mem _ he)
      cases o with
      | obj fs => simp [isObject] at ho
      | null => simp only [assignDeep]; exact ih htl
      | bool b => simp only [assignDeep]; exact ih htl
      | num n => simp only [assignDeep]; exact ih htl
      | str s => simp only [assignDeep]; exact ih htl
      | arr es => simp only [assignDeep]; exact ih htl

/-- Witness for C9: base `{x: 1}` with non-mapping edits `[2]`, `5`, and
`null`. -/
theorem nonmapping_edit_noop_witness :
    assignDeep (Doc.obj [("x", Doc.num 1)]) [Doc.arr [Doc.num 2], Doc.num 5, Doc.null]
      = Doc.obj [("x", Doc.num 1)] :=
  nonmapping_edit_noop (by decide)

/-- C2 (amended): from idle, `add e1` puts `e1` alone immediately; `e2`
and `e3` added before completion issue no put; on completion exactly one
more put fires, and its payload is `merge(e2, e3)` — the first pending
edit `e2` itself is stored as the merge base (not a fresh empty mapping),
so this equals `merge(merge({}, e2), e3)` only when `e2` is free of
denylisted keys in mapping nodes. -/
theorem coalesce_trace (f1 f2 f3 : List (String × Doc)) :
    execTrace RequestQueue.init
      [QEvent.add (Doc.obj f1), QEvent.add (Doc.obj f2), QEvent.add (Doc.obj f3),
        QEvent.complete]
      = Except.ok (⟨Doc.null, true⟩,
          [Doc.obj f1, assignDeep (Doc.obj f2) [Doc.obj f3]]) := by
  have hobj : isObject (assignDeep (Doc.obj f2) [Doc.obj f3]) = true := by
    rw [assignDeep_isObject_eq]
    rfl
  obtain ⟨g, hg⟩ := exists_obj_of_isObject hobj
  simp [execTrace, RequestQueue.init, RequestQueue.add, RequestQueue.complete,
    RequestQueue.merge, truthy, jsTypeof, isObject, hg]

/-- C2 counterexample: with `e1 = {}`, `e2 = {"__proto__": 1}`, `e3 = {}`
the second put's payload is `{"__proto__": 1}` (the pending `e2` itself,
merged in place), while `merge(merge({}, e2), e3)` is `{}` — the claimed
payload equation fails. -/
theorem coalesce_spec_merge_cex :
    execTrace RequestQueue.init
      [QEvent.add (Doc.obj []), QEvent.add (Doc.obj [("__proto__", Doc.num 1)]),
        QEvent.add (Doc.obj []), QEvent.complete]
      = Except.ok (⟨Doc.null, true⟩, [Doc.obj [], Doc.obj [("__proto__", Doc.num 1)]])
    ∧ assignDeep (assignDeep (Doc.obj []) [Doc.obj [("__proto__", Doc.num 1)]]) [Doc.obj []]
        = Doc.obj []
    ∧ Doc.obj [("__proto__", Doc.num 1)] ≠ Doc.obj [] := by
  refine ⟨?_, ?_, by simp⟩
  · simp [execTrace, RequestQueue.init, RequestQueue.add, RequestQueue.complete,
      RequestQueue.merge, truthy, jsTypeof, isObject, assignDeep, assignFields,
      assign, isValidKey, getKey, setKey]
  · simp [assignDeep, assignFields, isValidKey]

/-- C5 (amended): a mapping-shaped edit submitted while a write is
outstanding and the pending payload is absent (`null`) is stored directly
— by reference, with no merge into a fresh empty mapping, so denylisted
keys of the edit remain — no put is issued, and the queue is left
in-flight with a truthy (non-empty) pending payload, i.e. in
SendingWithPending. -/
theorem add_stores_pending {s : RequestQueue} {f : List (String × Doc)}
    (hs : s.isSending = true) (hp : s.payload = Doc.null) :
    RequestQueue.add s (Doc.obj f) = Except.ok (⟨Doc.obj f, true⟩, [])
    ∧ truthy (Doc.obj f) = true := by
  refine ⟨?_, rfl⟩
  unfold RequestQueue.add
  rw [hs, hp]
  simp [truthy]

/-- Witness for C5 (amended): sending state with `null` payload receiving
the edit `{"__proto__": 1}`. -/
theorem add_stores_pending_witness :
    RequestQueue.add ⟨Doc.null, true⟩ (Doc.obj [("__proto__", Doc.num 1)])
      = Except.ok (⟨Doc.obj [("__proto__", Doc.num 1)], true⟩, [])
    ∧ truthy (Doc.obj [("__proto__", Doc.num 1)]) = true :=
  add_stores_pending rfl rfl

/-- C5 counterexample: after `add {}` (idle → sending) and
`add {"__proto__": 1}` while sending with empty pending payload, the
stored pending payload is the edit itself, `{"__proto__": 1}`, whereas
`merge({}, e)` is `{}` — the pending payload is not created via
StructuralMerge and keeps the denylisted key. -/
theorem add_stores_pending_cex :
    execTrace RequestQueue.init
      [QEvent.add (Doc.obj []), QEvent.add (Doc.obj [("__proto__", Doc.num 1)])]
      = Except.ok (⟨Doc.obj [("__proto__", Doc.num 1)], true⟩, [Doc.obj []])
    ∧ assignDeep (Doc.obj []) [Doc.obj [("__proto__", Doc.num 1)]] = Doc.obj []
    ∧ Doc.obj [("__proto__", Doc.num 1)] ≠ Doc.obj [] := by
  refine ⟨?_, ?_, by simp⟩
  · simp [execTrace, RequestQueue.init, RequestQueue.add, RequestQueue.complete,
      truthy]
  · simp [assignDeep, assignFields, isValidKey]

/-- `_merge` of two object-shaped values never throws: the dynamic types
agree ("object") and the deep merge is taken. -/
theorem merge_obj {p e : Doc} (hp : isObject p = true) (he : isObject e = true) :
    RequestQueue.merge p e = Except.ok (assignDeep p [e]) := by
  obtain ⟨pf, rfl⟩ := exists_obj_of_isObject hp
  obtain ⟨ef, rfl⟩ := exists_obj_of_isObject he
  simp [RequestQueue.merge, jsTypeof, isObject]

/-- An `add` of a mapping-shaped edit while sending with a mapping-shaped
pending payload merges without throwing. -/
theorem add_sending_truthy {s : RequestQueue} {e : Doc} (hs : s.isSending = true)
    (hp : isObject s.payload = true) (he : isObject e = true) :
    RequestQueue.add s e
      = Except.ok ({ s with payload := assignDeep s.payload [e] }, []) := by
  unfold RequestQueue.add
  rw [hs, truthy_of_isObject hp, merge_obj hp he]
  simp

/-- Shape invariant: if every edit submitted along a valid trace is
mapping-shaped, the pending payload is always `null` or mapping-shaped. -/
theorem steps_payload_shape {s₀ : RequestQueue} {evs : List QEvent}
    {s : RequestQueue} {puts : List Doc}
    (h : Steps s₀ evs s puts)
    (hAll : ∀ d, QEvent.add d ∈ evs → isObject d = true)
    (h₀ : s₀.payload = Doc.null ∨ isObject s₀.payload = true) :
    s.payload = Doc.null ∨ isObject s.payload = true := by
  induction h with
  | nil s => exact h₀
  | add hadd hsteps ih =>
      rename_i s₁ s' s'' e ps ps' evs'
      have he : isObject e = true := hAll e (List.mem_cons_self _ _)
      have hAll' : ∀ d, QEvent.add d ∈ evs' → isObject d = true :=
        fun d hd => hAll d (List.mem_cons_of_mem _ hd)
      apply ih hAll'
      by_cases hs : s₁.isSending = true
      · by_cases hp : truthy s₁.payload = true
        · have hpo : isObject s₁.payload = true := by
            cases h₀ with
            | inl hnull => rw [hnull] at hp; cases hp
            | inr ho => exact ho
          rw [add_sending_truthy hs hpo he] at hadd
          injection hadd with h1
          injection h1 with h2 h3
          rw [← h2]
          right
          rw [show ({ s₁ with payload := assignDeep s₁.payload [e] } : RequestQueue).payload
              = assignDeep s₁.payload [e] from rfl, assignDeep_isObject_eq]
          exact hpo
        · have hadd' : RequestQueue.add s₁ e = Except.ok ({ s₁ with payload := e }, []) := by
            unfold RequestQueue.add
            rw [hs, eq_false_of_ne_true hp]
            simp
          rw [hadd'] at hadd
          injection hadd with h1
          injection h1 with h2 h3
          rw [← h2]
          right
          exact he
      · rw [add_idle (eq_false_of_ne_true hs)] at hadd
        injection hadd with h1
        injection h1 with h2 h3
        rw [← h2]
        exact h₀
  | complete hsend hc hsteps ih =>
      rename_i s₁ s' s'' ps ps' evs'
      have hAll' : ∀ d, QEvent.add d ∈ evs' → isObject d = true :=
        fun d hd => hAll d (List.mem_cons_of_mem _ hd)
      apply ih hAll'
      by_cases hp : truthy s₁.payload = true
      · rw [complete_pending hp] at hc
        injection hc with h2 h3
        rw [← h2]
        left
        rfl
      · rw [complete_empty (eq_false_of_ne_true hp)] at hc
        injection hc with h2 h3
        rw [← h2]
        exact h₀

/-- C8: `add` never throws for well-formed edits: for every state
reachable by a valid trace whose submitted edits are all mapping-shaped,
and every mapping-shaped edit, `add` returns `ok` — the type-mismatch
error branch of the queue's internal `_merge` is unreachable. -/
theorem add_total {evs : List QEvent} {s : RequestQueue} {puts : List Doc}
    {e : Doc}
    (h : Steps RequestQueue.init evs s puts)
    (hAll : ∀ d, QEvent.add d ∈ evs → isObject d = true)
    (he : isObject e = true) :
    (RequestQueue.add s e).isOk = true := by
  have hshape := steps_payload_shape h hAll (Or.inl rfl)
  by_cases hs : s.isSending = true
  · cases hshape with
    | inl hnull =>
        unfold RequestQueue.add
        rw [hs, hnull]
        simp [truthy, Except.isOk, Except.toBool]
    | inr hobj =>
        rw [add_sending_truthy hs hobj he]
        rfl
  · rw [add_idle (eq_false_of_ne_true hs)]
    rfl

/-- Witness for C8: the state reached by `add {h: 10}` from idle,
receiving the further edit `{s: 50}`. -/
theorem add_total_witness :
    (RequestQueue.add ⟨Doc.null, true⟩ (Doc.obj [("s", Doc.num 50)])).isOk = true :=
  add_total
    (show Steps RequestQueue.init [QEvent.add (Doc.obj [("h", Doc.num 10)])]
        ⟨Doc.null, true⟩ ([Doc.obj [("h", Doc.num 10)]] ++ []) from
      Steps.add (add_idle rfl) (Steps.nil _))
    (by
      intro d hd
      simp at hd
      subst hd
      rfl)
    rfl

/-- If a key is absent from a field list, no field carries it. -/
theorem getKey_none_notmem {fs : List (String × Doc)} {j : String}
    (h : getKey fs j = none) : ∀ p ∈ fs, p.1 ≠ j := by
  induction fs with
  | nil => intro p hp; cases hp
  | cons q tl ih =>
      obtain ⟨k', v'⟩ := q
      intro p hp
      by_cases hk : k' = j
      · subst hk
        simp [getKey] at h
      · simp [getKey, hk] at h
        cases hp with
        | head => exact hk
        | tail _ hmem => exact ih h p hmem

mutual

/-- Applying one edit's field list twice is the same as applying it once,
for edits whose mapping nodes have pairwise-distinct keys. -/
theorem assignFields_idem : ∀ (fields : List (String × Doc)),
    WFFields fields = true →
    ∀ t : Doc, assignFields (assignFields t fields) fields = assignFields t fields
  | [], _, t => by simp [assignFields]
  | (k, v) :: tl, hWF, t => by
      simp only [WFFields, Bool.and_eq_true, Bool.not_eq_true'] at hWF
      obtain ⟨⟨hmem, hWFv⟩, hWFtl⟩ := hWF
      have hnone : getKey tl k = none := by
        cases hg : getKey tl k with
        | none => rfl
        | some d => rw [hg] at hmem; cases hmem
      by_cases hk : isValidKey k = true
      · have hstep : ∀ x : Doc,
            assignFields x ((k, v) :: tl) = assignFields (assign x v k) tl := by
          intro x
          rw [assignFields]
          simp [hk]
        by_cases ht : isObject t = true
        · obtain ⟨tf, rfl⟩ := exists_obj_of_isObject ht
          have hcond : ∀ p ∈ tl, isValidKey p.1 = true → p.1 ≠ k :=
            fun p hp _ => getKey_none_notmem hnone p hp
          have hsobj : isObject (assign (Doc.obj tf) v k) = true := by
            rw [assign_isObject_eq]
            rfl
          have hUobj : isObject (assignFields (assign (Doc.obj tf) v k) tl) = true := by
            rw [assignFields_isObject_eq]
            exact hsobj
          obtain ⟨uf, hU⟩ := exists_obj_of_isObject hUobj
          have hUk : docGet (assignFields (assign (Doc.obj tf) v k) tl) k
              = docGet (assign (Doc.obj tf) v k) k :=
            assignFields_docGet_skip tl _ k hcond
          rw [hU] at hUk
          simp only [docGet] at hUk
          have habs : assign (Doc.obj uf) v k = Doc.obj uf :=
            assign_twice_absorb v tf uf k hWFv hUk
          simp only [hstep]
          rw [hU, habs, ← hU]
          exact assignFields_idem tl hWFtl _
        · have ht' : isObject t = false := eq_false_of_ne_true ht
          simp only [hstep, assign_nonobj ht', assignFields_nonobj tl ht']
      · have hstep : ∀ x : Doc,
            assignFields x ((k, v) :: tl) = assignFields x tl := by
          intro x
          rw [assignFields]
          simp [hk]
        simp only [hstep]
        exact assignFields_idem tl hWFtl t
termination_by fields => sizeOf fields

/-- If an object already stores, under `k`, exactly the value that
assigning `v` at `k` would produce, then assigning `v` at `k` to it is
the identity. -/
theorem assign_twice_absorb : ∀ (v : Doc) (tf uf : List (String × Doc)) (k : String),
    WFDoc v = true → getKey uf k = docGet (assign (Doc.obj tf) v k) k →
    assign (Doc.obj uf) v k = Doc.obj uf
  | Doc.null, tf, uf, k, _, h => by
      have hres : docGet (assign (Doc.obj tf) Doc.null k) k = some Doc.null := by
        simp [assign, docGet, getKey_setKey_self]
      rw [hres] at h
      simp [assign, setKey_same h]
  | Doc.bool b, tf, uf, k, _, h => by
      have hres : docGet (assign (Doc.obj tf) (Doc.bool b) k) k = some (Doc.bool b) := by
        simp [assign, docGet, getKey_setKey_self]
      rw [hres] at h
      simp [assign, setKey_same h]
  | Doc.num n, tf, uf, k, _, h => by
      have hres : docGet (assign (Doc.obj tf) (Doc.num n) k) k = some (Doc.num n) := by
        simp [assign, docGet, getKey_setKey_self]
      rw [hres] at h
      simp [assign, setKey_same h]
  | Doc.str s, tf, uf, k, _, h => by
      have hres : docGet (assign (Doc.obj tf) (Doc.str s) k) k = some (Doc.str s) := by
        simp [assign, docGet, getKey_setKey_self]
      rw [hres] at h
      simp [assign, setKey_same h]
  | Doc.arr es, tf, uf, k, _, h => by
      have hres : docGet (assign (Doc.obj tf) (Doc.arr es) k) k = some (Doc.arr es) := by
        simp [assign, docGet, getKey_setKey_self]
      rw [hres] at h
      simp [assign, setKey_same h]
  | Doc.obj vf, tf, uf, k, hWFv, h => by
      have hWFf : WFFields vf = true := by simpa [WFDoc] using hWFv
      have core : ∀ ofs : List (String × Doc),
          getKey uf k = some (assignFields (Doc.obj ofs) vf) →
          assign (Doc.obj uf) (Doc.obj vf) k = Doc.obj uf := by
        intro ofs hguf0
        have hWobj : isObject (assignFields (Doc.obj ofs) vf) = true := by
          rw [assignFields_isObject_eq]
          rfl
        obtain ⟨wf, hw⟩ := exists_obj_of_isObject hWobj
        have hguf : getKey uf k = some (Doc.obj wf) := by rw [hguf0, hw]
        have hidem : assignFields (Doc.obj wf) vf = Doc.obj wf := by
          rw [← hw]
          exact assignFields_idem vf hWFf (Doc.obj ofs)
        simp [assign, hguf, hidem, setKey_same hguf]
      cases hg : getKey tf k with
      | some d =>
          cases d with
          | obj ofs =>
              apply core ofs
              rw [h]
              simp [assign, hg, docGet, getKey_setKey_self]
          | null =>
              apply core []
              rw [h]
              simp [assign, hg, docGet, getKey_setKey_self]
          | bool b =>
              apply core []
              rw [h]
              simp [assign, hg, docGet, getKey_setKey_self]
          | num n =>
              apply core []
              rw [h]
              simp [assign, hg, docGet, getKey_setKey_self]
          | str s =>
              apply core []
              rw [h]
              simp [assign, hg, docGet, getKey_setKey_self]
          | arr es =>
              apply core []
              rw [h]
              simp [assign, hg, docGet, getKey_setKey_self]
      | none =>
          apply core []
          rw [h]
          simp [assign, hg, docGet, getKey_setKey_self]
termination_by v => sizeOf v

end

/-- C10: merge idempotence: applying an edit twice equals applying it
once — `assignDeep(assignDeep({}, e), e) = assignDeep({}, e)` for every
document `e` built from mappings, scalars, null, and sequences (with the
data model's unique keys per mapping). -/
theorem merge_idem {e : Doc} (he : WFDoc e = true) :
    assignDeep (assignDeep (Doc.obj []) [e]) [e] = assignDeep (Doc.obj []) [e] := by
  cases e with
  | obj ef =>
      have hf : WFFields ef = true := by simpa [WFDoc] using he
      simp only [assignDeep]
      exact assignFields_idem ef hf (Doc.obj [])
  | null => simp [assignDeep]
  | bool b => simp [assignDeep]
  | num n => simp [assignDeep]
  | str s => simp [assignDeep]
  | arr es => simp [assignDeep]

/-- Witness for C10: the edit `{a: {x: 1}, b: [2]}`. -/
theorem merge_idem_witness :
    assignDeep (assignDeep (Doc.obj [])
        [Doc.obj [("a", Doc.obj [("x", Doc.num 1)]), ("b", Doc.arr [Doc.num 2])]])
      [Doc.obj [("a", Doc.obj [("x", Doc.num 1)]), ("b", Doc.arr [Doc.num 2])]]
      = assignDeep (Doc.obj [])
        [Doc.obj [("a", Doc.obj [("x", Doc.num 1)]), ("b", Doc.arr [Doc.num 2])]] :=
  merge_idem (by simp [WFDoc, WFFields, getKey])
